import Mathlib

/-!
# nmsa/sp-lab: `dev-c/app/exercise_average.cpp`

A shallow embedding of the vote-collection program: `AVG::get_values`,
`AVG::compute_average` and `main`, together with the parts of the C library
(`scanf("%u")`, `getchar`, `atoi`) that decide their behaviour.

* Standard input is the list of characters still to be read; the empty list
  is end-of-file.  Standard output is a list of print events.
* `unsigned int` is a natural number below `2 ^ 32`; `++` wraps.
* The `FullyHomomorphic` engine is not part of these sources: its
  `encrypt_bit` is a parameter that threads the engine's generator state.
* Loops that the program may never leave take a fuel argument and give
  `none` when the fuel does not suffice.
-/

namespace SpLab

/-! ## C library -/

/-- Number of values of an `unsigned int` (`UINT_MAX + 1`). -/
def UINT_RANGE : Nat := 2 ^ 32

/-- Largest `unsigned long` of an LP64 platform. -/
def ULONG_MAX : Nat := 2 ^ 64 - 1

/-- Largest `long` of an LP64 platform. -/
def LONG_MAX : Int := 2 ^ 63 - 1

/-- The value `EOF` of `<stdio.h>`. -/
def EOF : Int := -1

/-- C `isspace` in the "C" locale: space, `\t`, `\n`, `\v`, `\f`, `\r`. -/
def isspace (c : Char) : Bool :=
  [' ', '\t', '\n', '\x0b', '\x0c', '\r'].contains c

/-- C `isdigit`. -/
def isdigit (c : Char) : Bool :=
  decide ('0' ≤ c) && decide (c ≤ '9')

/-- Value of a run of decimal digits, most significant first. -/
def digits_value (ds : List Char) : Nat :=
  ds.foldl (fun acc c => 10 * acc + (c.toNat - '0'.toNat)) 0

/-- What `strtoul(_, _, 10)` returns for a sign and a non-empty run of digits:
the value, negated modulo `2 ^ 64` after a minus sign, or `ULONG_MAX` when the
digits exceed it.  ISO C leaves a `%u` conversion of a number that does not fit
undefined; this is what glibc does on an LP64 platform. -/
def strtoul_value (neg : Bool) (ds : List Char) : Nat :=
  if digits_value ds > ULONG_MAX then ULONG_MAX
  else if neg then (ULONG_MAX + 1 - digits_value ds) % (ULONG_MAX + 1)
  else digits_value ds

/-- The subject sequence of a decimal conversion once white space is skipped:
whether a minus sign was read, the digits, and the characters left unread. -/
def scan_number (s : List Char) : Bool × List Char × List Char :=
  match s with
  | '-' :: t => (true, t.takeWhile isdigit, t.dropWhile isdigit)
  | '+' :: t => (false, t.takeWhile isdigit, t.dropWhile isdigit)
  | t => (false, t.takeWhile isdigit, t.dropWhile isdigit)

/-- The call `scanf("%u", &vote)` on standard input `s`, `vote` being the value
the variable holds before the call.  Gives the return value, the value of the
variable after the call and the input left unread.

White space is skipped first.  At end-of-file the call returns `EOF`.  When no
digit follows the optional sign the call returns `0` (matching failure), the
variable is untouched and the offending character stays unread.  Otherwise
the digits are consumed, the variable receives the `strtoul` value reduced to
32 bits, and the call returns `1`. -/
def scanf_u (s : List Char) (vote : Nat) : Int × Nat × List Char :=
  match s.dropWhile isspace with
  | [] => (EOF, vote, [])
  | c :: t =>
    match scan_number (c :: t) with
    | (_, [], rest) => (0, vote, rest)
    | (neg, d :: ds, rest) => (1, strtoul_value neg (d :: ds) % UINT_RANGE, rest)

/-- The call `getchar()`: the next character and the input after it, or `none` (the
call returns `EOF`) with the input still empty at end-of-file. -/
def getchar (s : List Char) : Option Char × List Char :=
  match s with
  | [] => (none, [])
  | c :: t => (some c, t)

/-- What `strtol(_, _, 10)` returns for a sign and a run of digits: the signed
value, clamped to the range of `long`. -/
def strtol_value (neg : Bool) (ds : List Char) : Int :=
  if neg then
    (if (digits_value ds : Int) > LONG_MAX + 1 then -(LONG_MAX + 1) else -(digits_value ds : Int))
  else
    (if (digits_value ds : Int) > LONG_MAX then LONG_MAX else (digits_value ds : Int))

/-- Conversion of a `long` to `int`: reduction modulo `2 ^ 32` into
`[-2 ^ 31, 2 ^ 31)`. -/
def to_int (x : Int) : Int :=
  (x + 2 ^ 31) % 2 ^ 32 - 2 ^ 31

/-- The call `atoi(s)`, that is `(int) strtol(s, NULL, 10)`: white space is skipped, an
optional sign and the digits that follow are converted; `0` without digits. -/
def atoi (s : List Char) : Int :=
  match scan_number (s.dropWhile isspace) with
  | (neg, ds, _) => to_int (strtol_value neg ds)

/-- Conversion of an `int` to `unsigned int`. -/
def to_unsigned (x : Int) : Nat :=
  (x % (UINT_RANGE : Int)).toNat

/-! ## Program state -/

/-- One print event on standard output. -/
inductive Out (C : Type) where
  /-- The prompt `printf("Please enter a vote (1-%u), or 0 to terminate: ", num_candidates)`. -/
  | prompt (num_candidates : Nat)
  /-- The rejection message `printf("Invalid vote, please try again...\n")`. -/
  | invalid
  /-- The ciphertext printed by `fh->print_cipher_bit(*encrypted_bit)`. -/
  | cipher_bit (c : C)
  /-- The line end `printf("\n")` behind a ballot. -/
  | newline
  /-- The usage message of `print_help()`. -/
  | help
  deriving DecidableEq, Repr

/-- The `FullyHomomorphic` engine behind `fh`, which these sources only use.
`R` is the engine's generator state, `C` the type `CipherBit`.
`encrypt_bit r pk m` is the ciphertext that `fh->encrypt_bit(_, pk, m)` writes
when the generator is in state `r`, and the state after the call;
`decrypt_bit sk c` is the bit that the private key reads from `c`. -/
structure FullyHomomorphic (R PK SK C : Type) where
  encrypt_bit : R → PK → Bool → C × R
  decrypt_bit : SK → C → Bool

/-- Everything `AVG::get_values` reads or writes, apart from the members
`num_candidates` and `pk`, which no method changes and which are passed
separately.

* `stdin`, `stdout`: the process streams;
* `fh`, `num_votes`, `votes`: members of `AVG` (`votes[i]` is `none` while the
  array cell has not been assigned);
* `vote`, `encrypted_votes_vector`: locals of `get_values`. -/
structure State (R C : Type) where
  stdin : List Char
  stdout : List (Out C)
  fh : R
  num_votes : Nat
  votes : List (Option C)
  vote : Nat
  encrypted_votes_vector : List C
  deriving DecidableEq

/-! ## `AVG::get_values` -/

/-- Lines 23-28: `for (unsigned int i = 0; i < num_candidates; i++)`, which
encrypts the bit `i == vote-1`, prints the ciphertext and pushes it on
`encrypted_votes_vector`.  `vote-1` is unsigned arithmetic; `i` stays below
`num_candidates`, itself an `unsigned int`, and does not wrap. -/
def get_values.encrypt_loop {R PK SK C : Type} (F : FullyHomomorphic R PK SK C) (pk : PK)
    (num_candidates vote : Nat) (st : State R C) : State R C :=
  (List.range num_candidates).foldl
    (fun st i =>
      let encrypted_bit := F.encrypt_bit st.fh pk (decide (i = (vote + UINT_RANGE - 1) % UINT_RANGE))
      { st with
        fh := encrypted_bit.2
        stdout := st.stdout ++ [Out.cipher_bit encrypted_bit.1]
        encrypted_votes_vector := st.encrypted_votes_vector ++ [encrypted_bit.1] })
    st

/-- Line 17: `while ((temp_char = getchar()) != '\n');`.  Gives the input
left once a newline has been read; at end-of-file `getchar` keeps returning
`EOF`, which is not `'\n'`, and the loop goes on. -/
def get_values.discard_loop : Nat → List Char → Option (List Char)
  | 0, _ => none
  | fuel + 1, s =>
    match getchar s with
    | (temp_char, rest) =>
      if temp_char ≠ some '\n' then get_values.discard_loop fuel rest else some rest

/-- Lines 12-31: the `while (true)` loop, from the state at its head.  Gives
the state at the `break`. -/
def get_values.vote_loop {R PK SK C : Type} (F : FullyHomomorphic R PK SK C) (pk : PK)
    (num_candidates : Nat) : Nat → State R C → Option (State R C)
  | 0, _ => none
  | fuel + 1, st =>
    match scanf_u st.stdin st.vote with
    | (scan_result, vote, rest) =>
      if scan_result ≠ 1 ∨ vote > num_candidates then
        match get_values.discard_loop fuel rest with
        | none => none
        | some rest =>
          get_values.vote_loop F pk num_candidates fuel
            { st with
              stdin := rest
              stdout := st.stdout ++ [Out.prompt num_candidates, Out.invalid]
              vote := vote }
      else if vote = 0 then
        some { st with
               stdin := rest
               stdout := st.stdout ++ [Out.prompt num_candidates]
               vote := vote }
      else
        let st := get_values.encrypt_loop F pk num_candidates vote
          { st with
            stdin := rest
            stdout := st.stdout ++ [Out.prompt num_candidates]
            vote := vote }
        get_values.vote_loop F pk num_candidates fuel
          { st with
            stdout := st.stdout ++ [Out.newline]
            num_votes := (st.num_votes + 1) % UINT_RANGE }

/-- Lines 34-36: `for (unsigned int i = 0; i < encrypted_votes_vector.size(); i++)`
with `votes[i] = encrypted_votes_vector[i]`; `i++` wraps at `2 ^ 32`. -/
def get_values.copy_loop {C : Type} (encrypted_votes_vector : List C) :
    Nat → Nat → List (Option C) → Option (List (Option C))
  | 0, _, _ => none
  | fuel + 1, i, votes =>
    if h : i < encrypted_votes_vector.length then
      get_values.copy_loop encrypted_votes_vector fuel ((i + 1) % UINT_RANGE)
        (votes.set i (some (encrypted_votes_vector.get ⟨i, h⟩)))
    else some votes

/-- The method `AVG::get_values`: `num_votes = 0`, an empty `encrypted_votes_vector`, the
vote loop, then `votes = new CipherBit*[encrypted_votes_vector.size()]` and the
copy loop.  `none` when `fuel` rounds do not bring a loop to its end. -/
def get_values {R PK SK C : Type} (F : FullyHomomorphic R PK SK C) (pk : PK)
    (num_candidates : Nat) (fuel : Nat) (st : State R C) : Option (State R C) :=
  match get_values.vote_loop F pk num_candidates fuel
      { st with num_votes := 0, encrypted_votes_vector := [] } with
  | none => none
  | some st =>
    match get_values.copy_loop st.encrypted_votes_vector fuel 0
        (List.replicate st.encrypted_votes_vector.length none) with
    | none => none
    | some votes => some { st with votes := votes }

/-! ## `AVG::compute_average` and `main` -/

/-- The method `AVG::compute_average`: the body is empty, the state is left as
it is and nothing is printed. -/
def compute_average {R C : Type} (st : State R C) : State R C :=
  st

/-- The function `main`; `argv` has `argc` entries.  The class
`DemoVoteCounter` is not declared in these sources: its `get_values` and
`compute_average` are taken to be the `AVG` methods defined here, `st` holds
the streams and the engine state its constructor leaves, and `pk` is the
public key of the object.  Gives the exit status and the final state; falling
off the end of `main` is status `0`. -/
def main {R PK SK C : Type} (F : FullyHomomorphic R PK SK C) (pk : PK)
    (argv : List (List Char)) (fuel : Nat) (st : State R C) : Option (Int × State R C) :=
  if argv.length ≠ 2 then
    some (1, { st with stdout := st.stdout ++ [Out.help] })
  else
    match get_values F pk (to_unsigned (atoi (argv.getD 1 []))) fuel st with
    | none => none
    | some st => some (0, compute_average st)

/-! ## Notions of the specification -/

/-- The ciphertext `c` is one that `encrypt_bit` writes for the plaintext bit `m`
under `pk`, in some state of the generator. -/
def Encrypts {R PK SK C : Type} (F : FullyHomomorphic R PK SK C) (pk : PK) (m : Bool) (c : C) :
    Prop :=
  ∃ r, (F.encrypt_bit r pk m).1 = c

/-- The engine decrypts correctly: under `sk`, every ciphertext written for a
bit under `pk` reads back as that bit. -/
def Decrypts {R PK SK C : Type} (F : FullyHomomorphic R PK SK C) (pk : PK) (sk : SK) : Prop :=
  ∀ r m, F.decrypt_bit sk (F.encrypt_bit r pk m).1 = m

/-- The list `b` is the ballot of the vote `v` for `n` candidates: exactly `n`
ciphertexts, the one at index `i` written for the plaintext bit `i == v-1`. -/
def IsBallot {R PK SK C : Type} (F : FullyHomomorphic R PK SK C) (pk : PK) (n v : Nat)
    (b : List C) : Prop :=
  b.length = n ∧ ∀ i, i < n → ∃ c, b[i]? = some c ∧ Encrypts F pk (decide (i = v - 1)) c

/-- The list `cs` is the ballots of the votes `vs`, one after the other in that
order. -/
def Ballots {R PK SK C : Type} (F : FullyHomomorphic R PK SK C) (pk : PK) (n : Nat) :
    List Nat → List C → Prop
  | [], cs => cs = []
  | v :: vs, cs => ∃ b rest, cs = b ++ rest ∧ IsBallot F pk n v b ∧ Ballots F pk n vs rest

/-- The input that follows the first newline of `s`, when `s` has one. -/
def after_newline : List Char → Option (List Char)
  | [] => none
  | c :: t => if c = '\n' then some t else after_newline t

/-- The accepted votes of at most `rounds` reads from `s`, in input order: a
numeric input `0` ends the list, a numeric input in `[1, n]` is accepted and
reading goes on right after it, and after any other input reading goes on
after the next newline.  `none` when `rounds` reads do not reach a `0`. -/
def accepted_votes.go (n : Nat) : Nat → List Char → Option (List Nat)
  | 0, _ => none
  | rounds + 1, s =>
    match scanf_u s 0 with
    | (r, v, rest) =>
      if r = 1 ∧ v = 0 then some []
      else if r = 1 ∧ 1 ≤ v ∧ v ≤ n then (accepted_votes.go n rounds rest).map (fun vs => v :: vs)
      else (after_newline rest).bind (accepted_votes.go n rounds)

/-- The accepted votes of the input `s` for `n` candidates: the numeric
inputs in `[1, n]` read before the first `0`, in input order.  Every read
consumes a character, so `s.length + 1` reads reach the `0` if any number
does. -/
def accepted_votes (n : Nat) (s : List Char) : List Nat :=
  (accepted_votes.go n (s.length + 1) s).getD []

/-! ## A concrete engine, for evaluating the program -/

/-- A transparent stand-in for the engine: the generator state is a counter, a
ciphertext is the counter value paired with the plaintext bit. -/
def demoFH : FullyHomomorphic Nat Unit Unit (Nat × Bool) where
  encrypt_bit := fun r _ m => ((r, m), r + 1)
  decrypt_bit := fun _ c => c.2

/-- The state in which `input` is pending on standard input and nothing has
been printed or stored. -/
def demoState (input : String) : State Nat (Nat × Bool) where
  stdin := input.toList
  stdout := []
  fh := 0
  num_votes := 0
  votes := []
  vote := 0
  encrypted_votes_vector := []

/-! ## The C library model -/

theorem scan_number_length (s : List Char) :
    (scan_number s).2.1.length + (scan_number s).2.2.length ≤ s.length := by
  have key : ∀ t : List Char,
      (t.takeWhile isdigit).length + (t.dropWhile isdigit).length = t.length := by
    intro t
    rw [← List.length_append, List.takeWhile_append_dropWhile]
  unfold scan_number
  split
  · simp only [List.length_cons]; have := key ‹_›; omega
  · simp only [List.length_cons]; have := key ‹_›; omega
  · exact (key s).le

/-- The old value of the variable only shows when nothing is assigned. -/
theorem scanf_u_old (s : List Char) (a b : Nat) :
    (scanf_u s a).1 = (scanf_u s b).1 ∧ (scanf_u s a).2.2 = (scanf_u s b).2.2 ∧
      ((scanf_u s a).1 = 1 → (scanf_u s a).2.1 = (scanf_u s b).2.1) := by
  unfold scanf_u
  split
  · simp [EOF]
  · split <;> simp

/-- An assigned `unsigned int` is below `2 ^ 32`. -/
theorem scanf_u_lt (s : List Char) (a : Nat) (h : (scanf_u s a).1 = 1) :
    (scanf_u s a).2.1 < UINT_RANGE := by
  unfold scanf_u at h ⊢
  split at h
  · simp [EOF] at h
  · split at h
    · simp at h
    · exact Nat.mod_lt _ (by decide)

/-- The call `scanf` never lengthens the input, and a successful conversion consumes a
character. -/
theorem scanf_u_length (s : List Char) (a : Nat) :
    (scanf_u s a).2.2.length ≤ s.length ∧
      ((scanf_u s a).1 = 1 → (scanf_u s a).2.2.length < s.length) := by
  have hd : (s.dropWhile isspace).length ≤ s.length := by
    have h2 := congrArg List.length (List.takeWhile_append_dropWhile isspace s)
    rw [List.length_append] at h2
    omega
  unfold scanf_u
  split
  · simp [EOF]
  · rename_i c t hc
    rw [hc] at hd
    have hl := scan_number_length (c :: t)
    split
    · rename_i neg rest hs
      rw [hs] at hl
      simp at hl hd ⊢
      omega
    · rename_i neg d ds rest hs
      rw [hs] at hl
      simp at hl hd ⊢
      omega

/-! ## The discard loop -/

/-- At end-of-file the discard loop never ends. -/
theorem discard_loop_nil (fuel : Nat) : get_values.discard_loop fuel [] = none := by
  induction fuel with
  | zero => rfl
  | succ k ih => simp [get_values.discard_loop, getchar, ih]

/-- When the discard loop ends, it has dropped exactly one line. -/
theorem discard_loop_some (fuel : Nat) (s next : List Char)
    (h : get_values.discard_loop fuel s = some next) :
    ∃ junk, s = junk ++ '\n' :: next ∧ '\n' ∉ junk ∧ junk.length < fuel := by
  induction fuel generalizing s with
  | zero => simp [get_values.discard_loop] at h
  | succ k ih =>
    cases s with
    | nil => rw [discard_loop_nil] at h; cases h
    | cons c t =>
      by_cases hc : c = '\n'
      · subst hc
        simp [get_values.discard_loop, getchar] at h
        exact ⟨[], by simp [h], by simp, by simp⟩
      · simp [get_values.discard_loop, getchar, hc] at h
        obtain ⟨junk, rfl, hj, hl⟩ := ih t h
        refine ⟨c :: junk, by simp, ?_, by simp; omega⟩
        simp only [List.mem_cons, not_or]
        exact ⟨fun e => hc e.symm, hj⟩

theorem after_newline_line (junk next : List Char) (hj : '\n' ∉ junk) :
    after_newline (junk ++ '\n' :: next) = some next := by
  induction junk with
  | nil => simp [after_newline]
  | cons c t ih =>
    have hc : c ≠ '\n' := fun h => hj (by simp [h])
    have ht : '\n' ∉ t := fun h => hj (by simp [h])
    simp [after_newline, hc, ih ht]

/-! ## The encryption loop -/

theorem encrypt_fold_spec {R PK SK C : Type} (F : FullyHomomorphic R PK SK C) (pk : PK)
    (u : Nat) (l : List Nat) (st : State R C) :
    ∃ b fh',
      l.foldl
        (fun st i =>
          let encrypted_bit := F.encrypt_bit st.fh pk (decide (i = u))
          { st with
            fh := encrypted_bit.2
            stdout := st.stdout ++ [Out.cipher_bit encrypted_bit.1]
            encrypted_votes_vector := st.encrypted_votes_vector ++ [encrypted_bit.1] })
        st
        = { st with
            fh := fh'
            stdout := st.stdout ++ b.map Out.cipher_bit
            encrypted_votes_vector := st.encrypted_votes_vector ++ b } ∧
      List.Forall₂ (fun i c => Encrypts F pk (decide (i = u)) c) l b := by
  induction l generalizing st with
  | nil => exact ⟨[], st.fh, by simp, List.Forall₂.nil⟩
  | cons i l ih =>
    obtain ⟨b, fh', hb, hall⟩ := ih
      { st with
        fh := (F.encrypt_bit st.fh pk (decide (i = u))).2
        stdout := st.stdout ++ [Out.cipher_bit (F.encrypt_bit st.fh pk (decide (i = u))).1]
        encrypted_votes_vector :=
          st.encrypted_votes_vector ++ [(F.encrypt_bit st.fh pk (decide (i = u))).1] }
    refine ⟨(F.encrypt_bit st.fh pk (decide (i = u))).1 :: b, fh', ?_,
      List.Forall₂.cons ⟨st.fh, rfl⟩ hall⟩
    rw [List.foldl_cons, hb]
    simp

/-- The encryption loop appends the ballot of `vote` and prints it; nothing
else changes but the generator state. -/
theorem encrypt_loop_spec {R PK SK C : Type} (F : FullyHomomorphic R PK SK C) (pk : PK)
    (n v : Nat) (st : State R C) (h1 : 1 ≤ v) (h2 : v < UINT_RANGE) :
    ∃ b fh',
      get_values.encrypt_loop F pk n v st
        = { st with
            fh := fh'
            stdout := st.stdout ++ b.map Out.cipher_bit
            encrypted_votes_vector := st.encrypted_votes_vector ++ b } ∧
      IsBallot F pk n v b := by
  have hu : (v + UINT_RANGE - 1) % UINT_RANGE = v - 1 := by
    have : v + UINT_RANGE - 1 = (v - 1) + UINT_RANGE := by omega
    rw [this, Nat.add_mod_right, Nat.mod_eq_of_lt (by omega)]
  obtain ⟨b, fh', hb, hall⟩ := encrypt_fold_spec F pk (v - 1) (List.range n) st
  refine ⟨b, fh', ?_, ?_⟩
  · unfold get_values.encrypt_loop
    rw [hu]
    exact hb
  · obtain ⟨hlen, hget⟩ := List.forall₂_iff_get.mp hall
    rw [List.length_range] at hlen
    refine ⟨hlen.symm, fun i hi => ?_⟩
    have hi2 : i < b.length := by omega
    refine ⟨b.get ⟨i, hi2⟩, by simp, ?_⟩
    have := hget i (by simpa using hi) hi2
    simpa using this

/-! ## One round of the vote loop -/

/-- A round that reads something other than a number in `[0, n]`: the loop
goes on, after the discard loop, from a state that differs in the streams and
in `vote` only. -/
theorem vote_loop_reject {R PK SK C : Type} (F : FullyHomomorphic R PK SK C) (pk : PK)
    (n fuel : Nat) (st : State R C) (r : Int) (v : Nat) (rest : List Char)
    (hs : scanf_u st.stdin st.vote = (r, v, rest)) (hc : r ≠ 1 ∨ v > n) :
    get_values.vote_loop F pk n (fuel + 1) st
      = (get_values.discard_loop fuel rest).bind fun next =>
          get_values.vote_loop F pk n fuel
            { st with
              stdin := next
              stdout := st.stdout ++ [Out.prompt n, Out.invalid]
              vote := v } := by
  rw [get_values.vote_loop]
  simp only [hs]
  rw [if_pos hc]
  cases get_values.discard_loop fuel rest <;> rfl

/-- A round that reads the number `0`: the loop is left. -/
theorem vote_loop_stop {R PK SK C : Type} (F : FullyHomomorphic R PK SK C) (pk : PK)
    (n fuel : Nat) (st : State R C) (rest : List Char)
    (hs : scanf_u st.stdin st.vote = (1, 0, rest)) :
    get_values.vote_loop F pk n (fuel + 1) st
      = some { st with stdin := rest, stdout := st.stdout ++ [Out.prompt n], vote := 0 } := by
  rw [get_values.vote_loop]
  simp only [hs]
  simp

/-- A round that reads a number in `[1, n]`: its ballot is printed and pushed,
`num_votes` is incremented and the loop goes on right after the number. -/
theorem vote_loop_accept {R PK SK C : Type} (F : FullyHomomorphic R PK SK C) (pk : PK)
    (n : Nat) (st : State R C) (v : Nat) (rest : List Char)
    (hs : scanf_u st.stdin st.vote = (1, v, rest)) (h1 : 1 ≤ v) (h2 : v ≤ n) :
    ∃ b fh', IsBallot F pk n v b ∧ ∀ fuel,
      get_values.vote_loop F pk n (fuel + 1) st
        = get_values.vote_loop F pk n fuel
            { stdin := rest
              stdout := st.stdout ++ [Out.prompt n] ++ b.map Out.cipher_bit ++ [Out.newline]
              fh := fh'
              num_votes := (st.num_votes + 1) % UINT_RANGE
              votes := st.votes
              vote := v
              encrypted_votes_vector := st.encrypted_votes_vector ++ b } := by
  have hlt : v < UINT_RANGE := by
    have := scanf_u_lt st.stdin st.vote (by rw [hs])
    rwa [hs] at this
  obtain ⟨b, fh', hb, hball⟩ := encrypt_loop_spec F pk n v
    { st with stdin := rest, stdout := st.stdout ++ [Out.prompt n], vote := v } h1 hlt
  refine ⟨b, fh', hball, fun fuel => ?_⟩
  rw [get_values.vote_loop]
  simp only [hs]
  rw [if_neg (by omega), if_neg (by omega)]
  simp only [hb]

/-! ## The copy loop -/

theorem UINT_RANGE_eq : UINT_RANGE = 4294967296 := by decide

/-- With `2 ^ 32` ciphertexts or more the counter `i` wraps before it reaches
the size, and the copy loop never ends. -/
theorem copy_loop_big {C : Type} (vec : List C) (hbig : UINT_RANGE ≤ vec.length) (fuel : Nat) :
    ∀ (i : Nat) (votes : List (Option C)), i < UINT_RANGE →
      get_values.copy_loop vec fuel i votes = none := by
  induction fuel with
  | zero => intro i votes _; rfl
  | succ k ih =>
    intro i votes hi
    rw [get_values.copy_loop, dif_pos (by omega)]
    exact ih _ _ (Nat.mod_lt _ (by rw [UINT_RANGE_eq]; omega))

/-- With fewer than `2 ^ 32` ciphertexts the copy loop, entered at `i` with the
cells below `i` assigned, assigns the remaining cells in `vec.length - i`
further rounds. -/
theorem copy_loop_small {C : Type} (vec : List C) (hsmall : vec.length < UINT_RANGE)
    (fuel : Nat) :
    ∀ (i : Nat), i ≤ vec.length →
      get_values.copy_loop vec fuel i
          ((vec.take i).map some ++ List.replicate (vec.length - i) none)
        = if vec.length - i < fuel then some (vec.map some) else none := by
  induction fuel with
  | zero => intro i _; rfl
  | succ k ih =>
    intro i hi
    rw [get_values.copy_loop]
    by_cases hlt : i < vec.length
    · rw [dif_pos hlt]
      have hmod : (i + 1) % UINT_RANGE = i + 1 := Nat.mod_eq_of_lt (by omega)
      have hset : ((vec.take i).map some ++ List.replicate (vec.length - i) none).set i
            (some (vec.get ⟨i, hlt⟩))
          = (vec.take (i + 1)).map some ++ List.replicate (vec.length - (i + 1)) none := by
        have hlen : ((vec.take i).map some).length = i := by simp; omega
        have hrep : vec.length - i = (vec.length - (i + 1)) + 1 := by omega
        rw [List.set_append_right _ _ (by omega), hlen, Nat.sub_self, hrep,
          List.replicate_succ, List.set_cons_zero]
        rw [List.take_succ, List.map_append, List.getElem?_eq_getElem hlt]
        simp
      rw [hmod, hset, ih (i + 1) (by omega)]
      have : (vec.length - (i + 1) < k) ↔ (vec.length - i < k + 1) := by omega
      simp only [this]
    · rw [dif_neg hlt]
      have hi2 : i = vec.length := by omega
      subst hi2
      simp

/-- When the copy loop ends, the sizes are below `2 ^ 32` and `votes` holds the
ciphertexts of `encrypted_votes_vector`, in order. -/
theorem copy_loop_returns {C : Type} (vec : List C) (fuel : Nat) (out : List (Option C))
    (h : get_values.copy_loop vec fuel 0 (List.replicate vec.length none) = some out) :
    vec.length < UINT_RANGE ∧ out = vec.map some := by
  by_cases hsmall : vec.length < UINT_RANGE
  · have := copy_loop_small vec hsmall fuel 0 (Nat.zero_le _)
    simp only [List.take_zero, List.map_nil, List.nil_append, Nat.sub_zero] at this
    rw [this] at h
    split at h
    · exact ⟨hsmall, (Option.some.inj h).symm⟩
    · cases h
  · rw [copy_loop_big vec (by omega) fuel 0 _ (by rw [UINT_RANGE_eq]; omega)] at h
    cases h

/-- The copy loop ends within `vec.length + 1` rounds when there are fewer than
`2 ^ 32` ciphertexts. -/
theorem copy_loop_enough {C : Type} (vec : List C) (fuel : Nat)
    (hsmall : vec.length < UINT_RANGE) (hf : vec.length < fuel) :
    get_values.copy_loop vec fuel 0 (List.replicate vec.length none) = some (vec.map some) := by
  have := copy_loop_small vec hsmall fuel 0 (Nat.zero_le _)
  simp only [List.take_zero, List.map_nil, List.nil_append, Nat.sub_zero] at this
  rw [this, if_pos hf]

/-! ## The accepted votes of an input -/

theorem accepted_go_stop (n k : Nat) (s : List Char) (a : Nat) (rest : List Char)
    (hs : scanf_u s a = (1, 0, rest)) :
    accepted_votes.go n (k + 1) s = some [] := by
  obtain ⟨h1, -, h3⟩ := scanf_u_old s a 0
  rw [hs] at h1 h3
  rw [accepted_votes.go]
  rcases h0 : scanf_u s 0 with ⟨r0, v0, rest0⟩
  rw [h0] at h1 h3
  simp only at h1 h3
  have hv : v0 = 0 := (h3 trivial).symm
  simp [← h1, hv]

theorem accepted_go_accept (n k : Nat) (s : List Char) (a v : Nat) (rest : List Char)
    (hs : scanf_u s a = (1, v, rest)) (hv1 : 1 ≤ v) (hv2 : v ≤ n) :
    accepted_votes.go n (k + 1) s = (accepted_votes.go n k rest).map fun vs => v :: vs := by
  obtain ⟨h1, h2, h3⟩ := scanf_u_old s a 0
  rw [hs] at h1 h2 h3
  rw [accepted_votes.go]
  rcases h0 : scanf_u s 0 with ⟨r0, v0, rest0⟩
  rw [h0] at h1 h2 h3
  simp only at h1 h2 h3
  have hv : v0 = v := (h3 trivial).symm
  subst hv
  subst h2
  have hne : v0 ≠ 0 := by omega
  simp [← h1, hne, hv1, hv2]

theorem accepted_go_reject (n k : Nat) (s : List Char) (a : Nat) (r : Int) (v : Nat)
    (rest : List Char) (hs : scanf_u s a = (r, v, rest)) (hc : r ≠ 1 ∨ v > n) :
    accepted_votes.go n (k + 1) s = (after_newline rest).bind (accepted_votes.go n k) := by
  obtain ⟨h1, h2, h3⟩ := scanf_u_old s a 0
  rw [hs] at h1 h2 h3
  rw [accepted_votes.go]
  rcases h0 : scanf_u s 0 with ⟨r0, v0, rest0⟩
  rw [h0] at h1 h2 h3
  simp only at h1 h2 h3
  subst h1
  subst h2
  by_cases hr : r = 1
  · have hv : v0 = v := (h3 hr).symm
    subst hv
    have hgt : v0 > n := by
      rcases hc with hc | hc
      · exact absurd hr hc
      · exact hc
    have hne : v0 ≠ 0 := by omega
    have hnle : ¬ v0 ≤ n := by omega
    simp [hr, hne, hnle]
  · simp [hr]

/-- The three ways a round can go, for the value `scanf` leaves in `vote`. -/
theorem round_cases (n : Nat) (r : Int) (v : Nat) :
    (r = 1 ∧ v = 0) ∨ (r = 1 ∧ 1 ≤ v ∧ v ≤ n) ∨ (r ≠ 1 ∨ v > n) := by
  by_cases hr : r = 1
  · by_cases h0 : v = 0
    · exact Or.inl ⟨hr, h0⟩
    · by_cases hn : v ≤ n
      · exact Or.inr (Or.inl ⟨hr, by omega, hn⟩)
      · exact Or.inr (Or.inr (Or.inr (by omega)))
  · exact Or.inr (Or.inr (Or.inl hr))

theorem after_newline_length (s next : List Char) (h : after_newline s = some next) :
    next.length < s.length := by
  induction s with
  | nil => simp [after_newline] at h
  | cons c t ih =>
    rw [after_newline] at h
    split at h
    · cases h; simp
    · have := ih h
      simp only [List.length_cons]
      omega

theorem accepted_go_succ (n k : Nat) :
    ∀ (s : List Char) (vs : List Nat), accepted_votes.go n k s = some vs →
      accepted_votes.go n (k + 1) s = some vs := by
  induction k with
  | zero => intro s vs h; simp [accepted_votes.go] at h
  | succ k ih =>
    intro s vs h
    rcases hs : scanf_u s 0 with ⟨r, v, rest⟩
    rcases round_cases n r v with ⟨hr, hv⟩ | ⟨hr, hv1, hv2⟩ | hc
    · subst hr; subst hv
      rw [accepted_go_stop n k s 0 rest hs] at h
      rw [accepted_go_stop n (k + 1) s 0 rest hs, h]
    · subst hr
      rw [accepted_go_accept n k s 0 v rest hs hv1 hv2] at h
      rw [accepted_go_accept n (k + 1) s 0 v rest hs hv1 hv2]
      cases hg : accepted_votes.go n k rest with
      | none => rw [hg] at h; cases h
      | some vs' => rw [hg] at h; rw [ih rest vs' hg]; exact h
    · rw [accepted_go_reject n k s 0 r v rest hs hc] at h
      rw [accepted_go_reject n (k + 1) s 0 r v rest hs hc]
      cases hn : after_newline rest with
      | none => rw [hn] at h; cases h
      | some next =>
        rw [hn] at h
        simp only [Option.some_bind] at h ⊢
        exact ih next vs h

theorem accepted_go_le (n k k' : Nat) (hk : k ≤ k') (s : List Char) (vs : List Nat)
    (h : accepted_votes.go n k s = some vs) : accepted_votes.go n k' s = some vs := by
  induction k' with
  | zero =>
    have : k = 0 := by omega
    subst this
    exact h
  | succ j ih =>
    by_cases hj : k ≤ j
    · exact accepted_go_succ n j s vs (ih hj)
    · have : k = j + 1 := by omega
      subst this
      exact h

/-- Every read consumes a character: what some number of reads finds,
`s.length + 1` reads find. -/
theorem accepted_go_bounded (n k : Nat) :
    ∀ (s : List Char) (vs : List Nat), accepted_votes.go n k s = some vs →
      accepted_votes.go n (s.length + 1) s = some vs := by
  induction k with
  | zero => intro s vs h; simp [accepted_votes.go] at h
  | succ k ih =>
    intro s vs h
    rcases hs : scanf_u s 0 with ⟨r, v, rest⟩
    have hlen := scanf_u_length s 0
    rw [hs] at hlen
    simp only at hlen
    rcases round_cases n r v with ⟨hr, hv⟩ | ⟨hr, hv1, hv2⟩ | hc
    · subst hr; subst hv
      rw [accepted_go_stop n k s 0 rest hs] at h
      rw [accepted_go_stop n s.length s 0 rest hs, h]
    · subst hr
      rw [accepted_go_accept n k s 0 v rest hs hv1 hv2] at h
      rw [accepted_go_accept n s.length s 0 v rest hs hv1 hv2]
      cases hg : accepted_votes.go n k rest with
      | none => rw [hg] at h; cases h
      | some vs' =>
        rw [hg] at h
        have hlt := hlen.2 rfl
        rw [accepted_go_le n (rest.length + 1) s.length (by omega) rest vs' (ih rest vs' hg)]
        exact h
    · rw [accepted_go_reject n k s 0 r v rest hs hc] at h
      rw [accepted_go_reject n s.length s 0 r v rest hs hc]
      cases hn : after_newline rest with
      | none => rw [hn] at h; cases h
      | some next =>
        rw [hn] at h
        simp only [Option.some_bind] at h ⊢
        have hlt := after_newline_length rest next hn
        exact accepted_go_le n (next.length + 1) s.length (by omega) next vs (ih next vs h)

/-- The accepted votes are what any sufficient number of reads finds. -/
theorem accepted_votes_eq (n k : Nat) (s : List Char) (vs : List Nat)
    (h : accepted_votes.go n k s = some vs) : accepted_votes n s = vs := by
  unfold accepted_votes
  rw [accepted_go_bounded n k s vs h]
  rfl

/-! ## The vote loop as a whole -/

/-- What the vote loop leaves at its `break`: the ballots of the accepted
votes, pushed in input order behind what the vector held, and as many
increments of `num_votes`. -/
theorem vote_loop_spec {R PK SK C : Type} (F : FullyHomomorphic R PK SK C) (pk : PK)
    (n fuel : Nat) :
    ∀ (st st' : State R C), get_values.vote_loop F pk n fuel st = some st' →
      st.num_votes < UINT_RANGE →
      ∃ vs cs, accepted_votes.go n fuel st.stdin = some vs ∧ Ballots F pk n vs cs ∧
        (∀ v ∈ vs, 1 ≤ v ∧ v ≤ n) ∧
        st'.encrypted_votes_vector = st.encrypted_votes_vector ++ cs ∧
        st'.num_votes = (st.num_votes + vs.length) % UINT_RANGE ∧
        st'.votes = st.votes := by
  induction fuel with
  | zero => intro st st' h; simp [get_values.vote_loop] at h
  | succ k ih =>
    intro st st' h hnum
    rcases hs : scanf_u st.stdin st.vote with ⟨r, v, rest⟩
    rcases round_cases n r v with ⟨hr, hv⟩ | ⟨hr, hv1, hv2⟩ | hc
    · subst hr; subst hv
      rw [vote_loop_stop F pk n k st rest hs] at h
      cases h
      refine ⟨[], [], accepted_go_stop n k st.stdin st.vote rest hs, rfl, by simp, by simp,
        ?_, rfl⟩
      simp [Nat.mod_eq_of_lt hnum]
    · subst hr
      obtain ⟨b, fh', hball, heq⟩ := vote_loop_accept F pk n st v rest hs hv1 hv2
      rw [heq k] at h
      obtain ⟨vs, cs, hgo, hbs, hin, hvec, hn, hvotes⟩ := ih _ st' h
        (Nat.mod_lt _ (by rw [UINT_RANGE_eq]; omega))
      refine ⟨v :: vs, b ++ cs, ?_, ⟨b, cs, rfl, hball, hbs⟩, ?_, ?_, ?_, hvotes⟩
      · rw [accepted_go_accept n k st.stdin st.vote v rest hs hv1 hv2]
        simp only at hgo
        rw [hgo]
        rfl
      · intro w hw
        rcases List.mem_cons.mp hw with rfl | hw
        · exact ⟨hv1, hv2⟩
        · exact hin w hw
      · rw [hvec, List.append_assoc]
      · rw [hn]
        simp only [List.length_cons]
        rw [UINT_RANGE_eq]
        omega
    · rw [vote_loop_reject F pk n k st r v rest hs hc] at h
      cases hd : get_values.discard_loop k rest with
      | none => rw [hd] at h; cases h
      | some next =>
        rw [hd] at h
        simp only [Option.some_bind] at h
        obtain ⟨vs, cs, hgo, hrest⟩ := ih _ st' h hnum
        refine ⟨vs, cs, ?_, hrest⟩
        obtain ⟨junk, rfl, hj, -⟩ := discard_loop_some k rest next hd
        rw [accepted_go_reject n k st.stdin st.vote r v _ hs hc, after_newline_line junk next hj]
        exact hgo

/-- The flat layout of a run of ballots: `vs.length * n` ciphertexts, the one
at index `k * n + i` written for the bit `i == vs[k] - 1`. -/
theorem Ballots_index {R PK SK C : Type} (F : FullyHomomorphic R PK SK C) (pk : PK) (n : Nat) :
    ∀ (vs : List Nat) (cs : List C), Ballots F pk n vs cs →
      cs.length = vs.length * n ∧
      ∀ k v, vs[k]? = some v → ∀ i, i < n →
        ∃ c, cs[k * n + i]? = some c ∧ Encrypts F pk (decide (i = v - 1)) c := by
  intro vs
  induction vs with
  | nil =>
    intro cs h
    have : cs = [] := h
    subst this
    exact ⟨by simp, fun k v hk => by simp at hk⟩
  | cons v0 vs ih =>
    intro cs h
    obtain ⟨b, rest, rfl, hb, hrest⟩ := h
    obtain ⟨hlen, hidx⟩ := ih rest hrest
    refine ⟨?_, fun k v hk i hi => ?_⟩
    · rw [List.length_append, hlen, hb.1, List.length_cons, Nat.succ_mul, Nat.add_comm]
    · cases k with
      | zero =>
        simp only [List.getElem?_cons_zero, Option.some.injEq] at hk
        subst hk
        obtain ⟨c, hc, he⟩ := hb.2 i hi
        refine ⟨c, ?_, he⟩
        rw [Nat.zero_mul, Nat.zero_add, List.getElem?_append_left (by rw [hb.1]; exact hi)]
        exact hc
      | succ k =>
        simp only [List.getElem?_cons_succ] at hk
        obtain ⟨c, hc, he⟩ := hidx k v hk i hi
        refine ⟨c, ?_, he⟩
        have hle : b.length ≤ (k + 1) * n + i := by rw [hb.1, Nat.succ_mul]; omega
        rw [List.getElem?_append_right hle]
        have : (k + 1) * n + i - b.length = k * n + i := by rw [hb.1, Nat.succ_mul]; omega
        rw [this]
        exact hc

/-! ## One-hot plaintext vectors -/

/-- A line that never ends is never discarded. -/
theorem discard_loop_no_newline (fuel : Nat) (s : List Char) (h : '\n' ∉ s) :
    get_values.discard_loop fuel s = none := by
  cases hd : get_values.discard_loop fuel s with
  | none => rfl
  | some next =>
    obtain ⟨junk, rfl, -, -⟩ := discard_loop_some fuel s next hd
    exact absurd (by simp) h

/-- What `get_values` leaves when it returns: `votes` holds the ballots of the
accepted votes of the input, `num_votes` is their number, and there are fewer
than `2 ^ 32` ciphertexts. -/
theorem get_values_spec {R PK SK C : Type} (F : FullyHomomorphic R PK SK C) (pk : PK)
    (n fuel : Nat) (st st' : State R C) (h : get_values F pk n fuel st = some st') :
    ∃ cs, Ballots F pk n (accepted_votes n st.stdin) cs ∧
      (∀ v ∈ accepted_votes n st.stdin, 1 ≤ v ∧ v ≤ n) ∧
      st'.encrypted_votes_vector = cs ∧ st'.votes = cs.map some ∧
      st'.num_votes = (accepted_votes n st.stdin).length := by
  unfold get_values at h
  cases hl : get_values.vote_loop F pk n fuel
      { st with num_votes := 0, encrypted_votes_vector := [] } with
  | none => rw [hl] at h; cases h
  | some st1 =>
    rw [hl] at h
    simp only at h
    cases hc : get_values.copy_loop st1.encrypted_votes_vector fuel 0
        (List.replicate st1.encrypted_votes_vector.length none) with
    | none => rw [hc] at h; cases h
    | some votes =>
      rw [hc] at h
      cases h
      obtain ⟨hsmall, hvotes⟩ := copy_loop_returns _ fuel votes hc
      obtain ⟨vs, cs, hgo, hbs, hin, hvec, hnum, -⟩ := vote_loop_spec F pk n fuel _ st1 hl
        (by rw [UINT_RANGE_eq]; exact Nat.zero_lt_succ _)
      simp only [List.nil_append, Nat.zero_add] at hvec hnum hgo
      rw [accepted_votes_eq n fuel st.stdin vs hgo]
      refine ⟨cs, hbs, hin, hvec, by rw [hvotes, hvec], ?_⟩
      simp only
      rw [hnum]
      apply Nat.mod_eq_of_lt
      have hlen := (Ballots_index F pk n vs cs hbs).1
      rw [hvec, hlen] at hsmall
      cases vs with
      | nil => rw [UINT_RANGE_eq]; exact Nat.zero_lt_succ _
      | cons v0 t =>
        have hn : 1 ≤ n := by
          have := hin v0 (by simp)
          omega
        calc (v0 :: t).length = (v0 :: t).length * 1 := (Nat.mul_one _).symm
          _ ≤ (v0 :: t).length * n := Nat.mul_le_mul_left _ hn
          _ < UINT_RANGE := hsmall

/-- Every voter is counted for exactly one candidate. -/
theorem count_sum (n : Nat) (vs : List Nat) (h : ∀ v ∈ vs, 1 ≤ v ∧ v ≤ n) :
    ∑ i ∈ Finset.range n, vs.count (i + 1) = vs.length := by
  induction vs with
  | nil => simp
  | cons v t ih =>
    have hv := h v (by simp)
    have ht := ih fun w hw => h w (by simp [hw])
    have hone : ∑ i ∈ Finset.range n, (if v = i + 1 then 1 else 0) = 1 := by
      have : ∀ i ∈ Finset.range n, (if v = i + 1 then 1 else 0) = if v - 1 = i then 1 else 0 := by
        intro i _
        by_cases hi : v = i + 1
        · have : v - 1 = i := by omega
          simp [hi]
        · have : ¬ v - 1 = i := by omega
          simp [hi, this]
      rw [Finset.sum_congr rfl this, Finset.sum_ite_eq]
      simp
      omega
    simp only [List.count_cons, List.length_cons, beq_iff_eq]
    rw [Finset.sum_add_distrib, ht, hone]

/-! ## The claims -/

/-- C2: a round of the vote loop that reads the number `0` leaves the loop,
whatever `n` is.  The state at the `break` differs from the state before the
round only in the prompt printed, in `vote` and in the input, of which exactly
the `0` has been consumed: no ciphertext is pushed or printed, `num_votes` is
not incremented and `encrypted_votes_vector` is kept as it is.  The copy loop
then stores these ciphertexts in `votes`, in order. -/
theorem C2_sentinel_zero_stops_collection {R PK SK C : Type}
    (F : FullyHomomorphic R PK SK C) (pk : PK) (n : Nat) (st : State R C) (rest : List Char)
    (hs : scanf_u st.stdin st.vote = (1, 0, rest)) :
    (∀ fuel,
      get_values.vote_loop F pk n (fuel + 1) st
        = some
            { stdin := rest
              stdout := st.stdout ++ [Out.prompt n]
              fh := st.fh
              num_votes := st.num_votes
              votes := st.votes
              vote := 0
              encrypted_votes_vector := st.encrypted_votes_vector }) ∧
    (∀ fuel, st.encrypted_votes_vector.length < UINT_RANGE →
      st.encrypted_votes_vector.length < fuel →
      get_values.copy_loop st.encrypted_votes_vector fuel 0
          (List.replicate st.encrypted_votes_vector.length none)
        = some (st.encrypted_votes_vector.map some)) :=
  ⟨fun fuel => vote_loop_stop F pk n fuel st rest hs,
    fun fuel h1 h2 => copy_loop_enough st.encrypted_votes_vector fuel h1 h2⟩

/-- Witness for C2: a ballot is collected, then `0` is read; the `7` behind
the `0` stays on standard input. -/
theorem C2_witness :
    scanf_u "0 7\n".toList 1 = (1, 0, " 7\n".toList) ∧
    get_values.vote_loop demoFH () 2 1
        { stdin := "0 7\n".toList
          stdout := []
          fh := 2
          num_votes := 1
          votes := []
          vote := 1
          encrypted_votes_vector := [(0, true), (1, false)] }
      = some
          { stdin := " 7\n".toList
            stdout := [Out.prompt 2]
            fh := 2
            num_votes := 1
            votes := []
            vote := 0
            encrypted_votes_vector := [(0, true), (1, false)] } :=
  ⟨by decide,
    (C2_sentinel_zero_stops_collection demoFH () 2
      { stdin := "0 7\n".toList
        stdout := []
        fh := 2
        num_votes := 1
        votes := []
        vote := 1
        encrypted_votes_vector := [(0, true), (1, false)] }
      " 7\n".toList (by decide)).1 0⟩

/-- C6, as stated, fails: `compute_average` produces nothing.  With two
candidates and the votes `1` and `2`, `main` ends in the very state in which
`get_values` returned: nothing is printed after the last prompt, and the only
ciphertexts held are the `2 * 2` ballot entries of `votes`, not a tally of `2`
ciphertexts. -/
theorem C6_counterexample :
    get_values demoFH () 2 10 (demoState "1\n2\n0\n")
      = some
          { stdin := "\n".toList
            stdout := [Out.prompt 2, Out.cipher_bit (0, true), Out.cipher_bit (1, false),
              Out.newline, Out.prompt 2, Out.cipher_bit (2, false), Out.cipher_bit (3, true),
              Out.newline, Out.prompt 2]
            fh := 4
            num_votes := 2
            votes := [some (0, true), some (1, false), some (2, false), some (3, true)]
            vote := 0
            encrypted_votes_vector := [(0, true), (1, false), (2, false), (3, true)] } ∧
    main demoFH () ["avg".toList, "2".toList] 10 (demoState "1\n2\n0\n")
      = some (0,
          { stdin := "\n".toList
            stdout := [Out.prompt 2, Out.cipher_bit (0, true), Out.cipher_bit (1, false),
              Out.newline, Out.prompt 2, Out.cipher_bit (2, false), Out.cipher_bit (3, true),
              Out.newline, Out.prompt 2]
            fh := 4
            num_votes := 2
            votes := [some (0, true), some (1, false), some (2, false), some (3, true)]
            vote := 0
            encrypted_votes_vector := [(0, true), (1, false), (2, false), (3, true)] }) := by
  decide

/-- C6, amended: `compute_average` changes nothing and produces no tally
vector.  After `get_values` has returned with the ballots of the accepted
votes `vs`, `compute_average` leaves `num_votes == vs.length` and the
`vs.length * n` ciphertexts of `votes`, unsummed; with an engine that decrypts
correctly the entry at index `k * n + i` reads `1` exactly when voter `k`
chose candidate `i + 1`, and the numbers of voters per candidate sum to
`vs.length`. -/
theorem C6_compute_average_keeps_ballots_unsummed {R PK SK C : Type}
    (F : FullyHomomorphic R PK SK C) (pk : PK) (sk : SK) (n fuel : Nat) (st st' : State R C)
    (hd : Decrypts F pk sk) (h : get_values F pk n fuel st = some st') :
    compute_average st' = st' ∧
    (compute_average st').num_votes = (accepted_votes n st.stdin).length ∧
    (compute_average st').votes.length = (accepted_votes n st.stdin).length * n ∧
    (∀ k v, (accepted_votes n st.stdin)[k]? = some v → ∀ i, i < n →
      ∃ c, (compute_average st').votes[k * n + i]? = some (some c) ∧
        F.decrypt_bit sk c = decide (v = i + 1)) ∧
    ∑ i ∈ Finset.range n, (accepted_votes n st.stdin).count (i + 1)
      = (accepted_votes n st.stdin).length := by
  obtain ⟨cs, hbs, hin, -, hvotes, hnum⟩ := get_values_spec F pk n fuel st st' h
  obtain ⟨hlen, hidx⟩ := Ballots_index F pk n _ cs hbs
  refine ⟨rfl, hnum, ?_, fun k v hk i hi => ?_, count_sum n _ hin⟩
  · show st'.votes.length = _
    rw [hvotes, List.length_map, hlen]
  · have hv := hin v (List.getElem?_mem hk)
    obtain ⟨c, hc, r, hr⟩ := hidx k v hk i hi
    refine ⟨c, ?_, ?_⟩
    · show st'.votes[k * n + i]? = _
      rw [hvotes, List.getElem?_map, hc]
      rfl
    · rw [← hr, hd]
      have : (i = v - 1) ↔ (v = i + 1) := by omega
      simp only [this]

/-- Witness for C6 amended: two candidates, the votes `1` and `2`. -/
theorem C6_witness :
    Decrypts demoFH () () ∧
    ∃ st', get_values demoFH () 2 10 (demoState "1\n2\n0\n") = some st' ∧
      compute_average st' = st' ∧
      (compute_average st').votes.length
        = (accepted_votes 2 (demoState "1\n2\n0\n").stdin).length * 2 ∧
      ∑ i ∈ Finset.range 2, (accepted_votes 2 (demoState "1\n2\n0\n").stdin).count (i + 1)
        = (accepted_votes 2 (demoState "1\n2\n0\n").stdin).length := by
  have hd : Decrypts demoFH () () := fun _ _ => rfl
  have hrun : get_values demoFH () 2 10 (demoState "1\n2\n0\n")
      = some
          { stdin := "\n".toList
            stdout := [Out.prompt 2, Out.cipher_bit (0, true), Out.cipher_bit (1, false),
              Out.newline, Out.prompt 2, Out.cipher_bit (2, false), Out.cipher_bit (3, true),
              Out.newline, Out.prompt 2]
            fh := 4
            num_votes := 2
            votes := [some (0, true), some (1, false), some (2, false), some (3, true)]
            vote := 0
            encrypted_votes_vector := [(0, true), (1, false), (2, false), (3, true)] } := by
    decide
  have hall := C6_compute_average_keeps_ballots_unsummed demoFH () () 2 10
    (demoState "1\n2\n0\n") _ hd hrun
  exact ⟨hd, _, hrun, hall.1, hall.2.2.1, hall.2.2.2.2⟩

/-- C7: `main` prints the usage message and exits with status `1`, the input
unread and nothing stored, exactly when `argc != 2`.  With `argc == 2` it runs
`get_values` for `atoi(argv[1])` candidates, converted to `unsigned int`, then
`compute_average`, and returns `0`. -/
theorem C7_main_usage_exit_iff_wrong_argc {R PK SK C : Type}
    (F : FullyHomomorphic R PK SK C) (pk : PK) (argv : List (List Char)) (st : State R C) :
    (argv.length ≠ 2 → ∀ fuel,
      main F pk argv fuel st
        = some (1,
            { stdin := st.stdin
              stdout := st.stdout ++ [Out.help]
              fh := st.fh
              num_votes := st.num_votes
              votes := st.votes
              vote := st.vote
              encrypted_votes_vector := st.encrypted_votes_vector })) ∧
    (argv.length = 2 → ∀ fuel,
      main F pk argv fuel st
        = (get_values F pk (to_unsigned (atoi (argv.getD 1 []))) fuel st).map fun st' =>
            (0, compute_average st')) ∧
    (∀ fuel status st', main F pk argv fuel st = some (status, st') →
      ((status = 1 ∧ st'.stdout = st.stdout ++ [Out.help]) ↔ argv.length ≠ 2) ∧
      (status = 0 ↔ argv.length = 2)) := by
  refine ⟨fun h fuel => ?_, fun h fuel => ?_, fun fuel status st' hm => ?_⟩
  · unfold main
    rw [if_pos h]
  · unfold main
    rw [if_neg (by simp [h])]
    cases get_values F pk (to_unsigned (atoi (argv.getD 1 []))) fuel st <;> rfl
  · unfold main at hm
    by_cases h : argv.length ≠ 2
    · rw [if_pos h] at hm
      cases hm
      simp [h]
    · rw [if_neg h] at hm
      have h2 : argv.length = 2 := by omega
      cases hg : get_values F pk (to_unsigned (atoi (argv.getD 1 []))) fuel st with
      | none => rw [hg] at hm; cases hm
      | some s =>
        rw [hg] at hm
        cases hm
        simp [h2]

/-- Witness for C7: one argument too few; and the argument `2` with two votes. -/
theorem C7_witness :
    main demoFH () ["avg".toList] 10 (demoState "1\n0\n")
      = some (1,
          { stdin := "1\n0\n".toList
            stdout := [Out.help]
            fh := 0
            num_votes := 0
            votes := []
            vote := 0
            encrypted_votes_vector := [] }) ∧
    main demoFH () ["avg".toList, "2".toList] 10 (demoState "1\n0\n")
      = (get_values demoFH () 2 10 (demoState "1\n0\n")).map fun st' =>
          (0, compute_average st') :=
  ⟨(C7_main_usage_exit_iff_wrong_argc demoFH () ["avg".toList] (demoState "1\n0\n")).1
      (by decide) 10,
    (C7_main_usage_exit_iff_wrong_argc demoFH () ["avg".toList, "2".toList]
      (demoState "1\n0\n")).2.1 (by decide) 10⟩

/-- C8 is refuted by the code: at end-of-file `scanf` returns `EOF`, the round
is taken for an invalid vote, and the discard loop waits for a newline that
`getchar` will never return.  So on the empty input `get_values` does not
return, whatever the fuel; nor does it when the unread input behind a
rejected one holds no newline. -/
theorem C8_get_values_never_returns_at_end_of_file {R PK SK C : Type}
    (F : FullyHomomorphic R PK SK C) (pk : PK) (n fuel : Nat) (st : State R C) :
    get_values F pk n fuel
        { stdin := []
          stdout := st.stdout
          fh := st.fh
          num_votes := st.num_votes
          votes := st.votes
          vote := st.vote
          encrypted_votes_vector := st.encrypted_votes_vector } = none ∧
    (∀ (r : Int) (v : Nat) (rest : List Char), scanf_u st.stdin st.vote = (r, v, rest) →
      r ≠ 1 ∨ v > n → '\n' ∉ rest → get_values F pk n fuel st = none) := by
  have key : ∀ (s : State R C) (r : Int) (v : Nat) (rest : List Char),
      scanf_u s.stdin s.vote = (r, v, rest) → r ≠ 1 ∨ v > n → '\n' ∉ rest →
      get_values.vote_loop F pk n fuel s = none := by
    intro s r v rest hs hc hnl
    cases fuel with
    | zero => rfl
    | succ k => rw [vote_loop_reject F pk n k s r v rest hs hc, discard_loop_no_newline k rest hnl]; rfl
  constructor
  · unfold get_values
    rw [key { stdin := []
              stdout := st.stdout
              fh := st.fh
              num_votes := 0
              votes := st.votes
              vote := st.vote
              encrypted_votes_vector := [] } EOF st.vote [] rfl (Or.inl (by decide)) (by simp)]
  · intro r v rest hs hc hnl
    unfold get_values
    rw [key { st with num_votes := 0, encrypted_votes_vector := [] } r v rest hs hc hnl]

/-- C8 at concrete inputs, three candidates: the empty input, and the inputs
`7` and `x` with no newline behind them; ten rounds of fuel. -/
theorem C8_failing_inputs :
    get_values demoFH () 3 10 (demoState "") = none ∧
    get_values demoFH () 3 10 (demoState "7") = none ∧
    get_values demoFH () 3 10 (demoState "x") = none :=
  ⟨(C8_get_values_never_returns_at_end_of_file demoFH () 3 10 (demoState "")).1,
    (C8_get_values_never_returns_at_end_of_file demoFH () 3 10 (demoState "7")).2 1 7 []
      (by decide) (by decide) (by simp),
    (C8_get_values_never_returns_at_end_of_file demoFH () 3 10 (demoState "x")).2 0 0 ['x']
      (by decide) (by decide) (by decide)⟩

/-- C9: when `get_values` returns, with `vs` the accepted votes of the input
(the numeric inputs in `[1, n]` read before the first `0`, in input order):
`num_votes` is `vs.length`, `votes` has exactly `vs.length * n` entries, and
the entry at index `k * n + i` is the ciphertext that `encrypt_bit` wrote for
the bit `i == vs[k] - 1`. -/
theorem C9_votes_is_flat_array_of_accepted_ballots {R PK SK C : Type}
    (F : FullyHomomorphic R PK SK C) (pk : PK) (n fuel : Nat) (st st' : State R C)
    (h : get_values F pk n fuel st = some st') :
    st'.num_votes = (accepted_votes n st.stdin).length ∧
    st'.votes.length = (accepted_votes n st.stdin).length * n ∧
    (∀ k v, (accepted_votes n st.stdin)[k]? = some v → 1 ≤ v ∧ v ≤ n ∧
      ∀ i, i < n →
        ∃ r, st'.votes[k * n + i]? = some (some (F.encrypt_bit r pk (decide (i = v - 1))).1)) := by
  obtain ⟨cs, hbs, hin, -, hvotes, hnum⟩ := get_values_spec F pk n fuel st st' h
  obtain ⟨hlen, hidx⟩ := Ballots_index F pk n _ cs hbs
  refine ⟨hnum, by rw [hvotes, List.length_map, hlen], fun k v hk => ?_⟩
  have hv := hin v (List.getElem?_mem hk)
  refine ⟨hv.1, hv.2, fun i hi => ?_⟩
  obtain ⟨c, hc, r, hr⟩ := hidx k v hk i hi
  exact ⟨r, by rw [hvotes, List.getElem?_map, hc, hr]; rfl⟩

/-- Witness for C9: three candidates; the inputs `2`, `9`, `x`, `3`, `0`, of
which `2` and `3` are accepted. -/
theorem C9_witness :
    accepted_votes 3 (demoState "2\n9\nx\n3\n0\n").stdin = [2, 3] ∧
    ∃ st', get_values demoFH () 3 20 (demoState "2\n9\nx\n3\n0\n") = some st' ∧
      st'.num_votes = (accepted_votes 3 (demoState "2\n9\nx\n3\n0\n").stdin).length ∧
      st'.votes.length = (accepted_votes 3 (demoState "2\n9\nx\n3\n0\n").stdin).length * 3 ∧
      st'.votes = [some (0, false), some (1, true), some (2, false),
        some (3, false), some (4, false), some (5, true)] := by
  refine ⟨by decide, ?_⟩
  have hrun : get_values demoFH () 3 20 (demoState "2\n9\nx\n3\n0\n")
      = some
          { stdin := "\n".toList
            stdout := [Out.prompt 3, Out.cipher_bit (0, false), Out.cipher_bit (1, true),
              Out.cipher_bit (2, false), Out.newline, Out.prompt 3, Out.invalid, Out.prompt 3,
              Out.invalid, Out.prompt 3, Out.cipher_bit (3, false), Out.cipher_bit (4, false),
              Out.cipher_bit (5, true), Out.newline, Out.prompt 3]
            fh := 6
            num_votes := 2
            votes := [some (0, false), some (1, true), some (2, false),
              some (3, false), some (4, false), some (5, true)]
            vote := 0
            encrypted_votes_vector := [(0, false), (1, true), (2, false),
              (3, false), (4, false), (5, true)] } := by
    decide
  have hall := C9_votes_is_flat_array_of_accepted_ballots demoFH () 3 20
    (demoState "2\n9\nx\n3\n0\n") _ hrun
  exact ⟨_, hrun, hall.1, hall.2.1, rfl⟩

/-- C10: with zero candidates every round that reads a nonzero number rejects
it, and when `get_values` returns, `num_votes` is `0` and `votes` and
`encrypted_votes_vector` are empty.  `main` reaches this case whenever
`atoi(argv[1])` is `0`, as for the arguments `0` and `abc`. -/
theorem C10_zero_candidates_no_ballot {R PK SK C : Type}
    (F : FullyHomomorphic R PK SK C) (pk : PK) (st : State R C) :
    (∀ (v : Nat) (rest : List Char), scanf_u st.stdin st.vote = (1, v, rest) → v ≠ 0 →
      ∀ fuel,
        get_values.vote_loop F pk 0 (fuel + 1) st
          = (get_values.discard_loop fuel rest).bind fun next =>
              get_values.vote_loop F pk 0 fuel
                { stdin := next
                  stdout := st.stdout ++ [Out.prompt 0, Out.invalid]
                  fh := st.fh
                  num_votes := st.num_votes
                  votes := st.votes
                  vote := v
                  encrypted_votes_vector := st.encrypted_votes_vector }) ∧
    (∀ fuel st', get_values F pk 0 fuel st = some st' →
      st'.num_votes = 0 ∧ st'.votes = [] ∧ st'.encrypted_votes_vector = []) ∧
    (∀ (argv : List (List Char)) fuel status st', argv.length = 2 →
      to_unsigned (atoi (argv.getD 1 [])) = 0 →
      main F pk argv fuel st = some (status, st') →
      st'.num_votes = 0 ∧ st'.votes = [] ∧ st'.encrypted_votes_vector = []) ∧
    to_unsigned (atoi "0".toList) = 0 ∧ to_unsigned (atoi "abc".toList) = 0 := by
  have hret : ∀ fuel st', get_values F pk 0 fuel st = some st' →
      st'.num_votes = 0 ∧ st'.votes = [] ∧ st'.encrypted_votes_vector = [] := by
    intro fuel st' h
    obtain ⟨cs, hbs, hin, hvec, hvotes, hnum⟩ := get_values_spec F pk 0 fuel st st' h
    have hnil : accepted_votes 0 st.stdin = [] := by
      cases hvs : accepted_votes 0 st.stdin with
      | nil => rfl
      | cons v t =>
        have := hin v (by rw [hvs]; simp)
        omega
    rw [hnil] at hbs hnum
    have hcs : cs = [] := hbs
    subst hcs
    exact ⟨hnum, hvotes, hvec⟩
  refine ⟨fun v rest hs hv fuel => ?_, hret, ?_, by decide, by decide⟩
  · exact vote_loop_reject F pk 0 fuel st 1 v rest hs (Or.inr (by omega))
  · intro argv fuel status st' hargc hzero hm
    unfold main at hm
    rw [if_neg (by simp [hargc]), hzero] at hm
    cases hg : get_values F pk 0 fuel st with
    | none => rw [hg] at hm; cases hm
    | some s =>
      rw [hg] at hm
      cases hm
      exact hret fuel s hg

/-- Witness for C10: the argument `0`, then the votes `1` and `2`, then `0`. -/
theorem C10_witness :
    ∃ st', main demoFH () ["avg".toList, "0".toList] 10 (demoState "1\n2\n0\n") = some (0, st') ∧
      st'.stdout = [Out.prompt 0, Out.invalid, Out.prompt 0, Out.invalid, Out.prompt 0] ∧
      st'.num_votes = 0 ∧ st'.votes = [] ∧ st'.encrypted_votes_vector = [] := by
  have hrun : main demoFH () ["avg".toList, "0".toList] 10 (demoState "1\n2\n0\n")
      = some (0,
          { stdin := "\n".toList
            stdout := [Out.prompt 0, Out.invalid, Out.prompt 0, Out.invalid, Out.prompt 0]
            fh := 0
            num_votes := 0
            votes := []
            vote := 0
            encrypted_votes_vector := [] }) := by
    decide
  exact ⟨_, hrun, rfl,
    (C10_zero_candidates_no_ballot demoFH () (demoState "1\n2\n0\n")).2.2.1
      ["avg".toList, "0".toList] 10 0 _ (by decide) (by decide) hrun⟩

end SpLab
